import Mathlib

/-!
# Verification of the SO(n) numerical kernel of `tukey-turkey-triumph`

Shallow embedding, over exact rationals, of the dense matrix primitives and
geodesic-distance kernel of the repository:

* `math4d.js` — dense N×N primitives (`matMultN`, `matVecMultN`, `matAddN`,
  `matSubtractN`, `matScaleN`, `frobeniusNorm`, `matrixLogN`,
  `geodesicDistanceSO`);
* `geodesic.js` — the eigendecomposition-based `logUnitary` together with
  `geodesicDistance` and `dGeodesicAtZero`;
* `geodesic-wasm.js` — the flat/nested conversions `matrixToFlat` and
  `flatToMatrix` at the WASM boundary.

Matrices are `List (List ℚ)` in row-major order, mirroring the JavaScript
nested arrays; IEEE doubles are modelled by exact rationals.  Out-of-range
array reads (which in JavaScript produce `undefined`/`NaN`) are modelled by a
default value; every theorem below only exercises reads that are in range in
the source as well, except where silent truncation itself is the point and the
truncating reads are in range on the larger operand.  External library
routines (`numeric.eig`, `numeric.T.inv`, `Math.atan2`, `Math.sqrt`,
`math.expm`) are uninterpreted function parameters: the embedded functions
compose them exactly as the source does.  `Math.sqrt` of a Frobenius sum of
squares is kept in squared form where a definition needs to stay exact.
-/

namespace TukeySO

abbrev Mat := List (List ℚ)

/-- Embeds `math4d.js` `identityNxN`: n×n identity built row by row
(`Array(n).fill(0)` then `mat[i][i] = 1`). -/
def identityNxN (n : ℕ) : Mat :=
  (List.range n).map (fun i => (List.range n).map (fun j => if j = i then (1 : ℚ) else 0))

/-- Embeds `math4d.js` `matVecMultN`: `n = v.length`; `result[i] = Σ_{j<n} mat[i][j] * v[j]`. -/
def matVecMultN (mat : Mat) (v : List ℚ) : List ℚ :=
  let n := v.length
  (List.range n).map (fun i =>
    (List.range n).foldl (fun acc j => acc + (mat.getD i []).getD j 0 * v.getD j 0) 0)

/-- Embeds `math4d.js` `matMultN`: `n = a.length`; the result starts as `identityNxN n`
and every entry `i,j < n` is overwritten with `Σ_{k<n} a[i][k] * b[k][j]`, so the
initial identity never survives. -/
def matMultN (a b : Mat) : Mat :=
  let n := a.length
  (List.range n).map (fun i => (List.range n).map (fun j =>
    (List.range n).foldl (fun acc k => acc + (a.getD i []).getD k 0 * (b.getD k []).getD j 0) 0))

/-- Embeds `math4d.js` `transposeN`: `n = mat.length`; `result[i][j] = mat[j][i]` for `i,j < n`. -/
def transposeN (mat : Mat) : Mat :=
  let n := mat.length
  (List.range n).map (fun i => (List.range n).map (fun j => (mat.getD j []).getD i 0))

/-- Embeds `math4d.js` `matSubtractN`: `n = a.length`; entrywise difference on the n×n square. -/
def matSubtractN (a b : Mat) : Mat :=
  let n := a.length
  (List.range n).map (fun i => (List.range n).map (fun j =>
    (a.getD i []).getD j 0 - (b.getD i []).getD j 0))

/-- Embeds `math4d.js` `matAddN`: `n = a.length`; entrywise sum on the n×n square. -/
def matAddN (a b : Mat) : Mat :=
  let n := a.length
  (List.range n).map (fun i => (List.range n).map (fun j =>
    (a.getD i []).getD j 0 + (b.getD i []).getD j 0))

/-- Embeds `math4d.js` `matScaleN`: `n = mat.length`; entrywise scaling on the n×n square. -/
def matScaleN (mat : Mat) (s : ℚ) : Mat :=
  let n := mat.length
  (List.range n).map (fun i => (List.range n).map (fun j => (mat.getD i []).getD j 0 * s))

/-- Embeds `math4d.js` `frobeniusNorm`, kept in squared form (the source takes
`Math.sqrt` of this sum; the square root is irrational in general). -/
def frobeniusNormSqN (mat : Mat) : ℚ :=
  mat.foldl (fun acc row => row.foldl (fun a x => a + x * x) acc) 0

/-- The loop `for (k = 2; k <= terms; k++)` of `math4d.js` `matrixLogN`:
`power = matMultN(power, A); result = matAddN(result, matScaleN(power, (-1)^(k+1)/k))`. -/
def matrixLogLoop (A power result : Mat) (k terms : ℕ) : Mat :=
  if terms < k then result
  else
    let p := matMultN power A
    matrixLogLoop A p (matAddN result (matScaleN p ((-1) ^ (k + 1) / k))) (k + 1) terms
  termination_by terms + 1 - k
  decreasing_by omega

/-- Embeds `math4d.js` `matrixLogN`: truncated series `Σ_{k=1}^{terms} (-1)^{k+1} (M-I)^k / k`,
accumulated by the loop above starting from `result = matScaleN A 1`, `power = A`,
where `A = M - I`.  The term count defaults to 8 in the source. -/
def matrixLogN (mat : Mat) (terms : ℕ := 8) : Mat :=
  let n := mat.length
  let A := matSubtractN mat (identityNxN n)
  matrixLogLoop A A (matScaleN A 1) 2 terms

/-- Embeds `math4d.js` `geodesicDistanceSO`, kept in squared form:
`||log(R^T Q)||_F²` with the truncated-series `matrixLogN` at its default term count. -/
def geodesicDistanceSOSq (R Q : Mat) : ℚ :=
  frobeniusNormSqN (matrixLogN (matMultN (transposeN R) Q))

section ClaimC2

/-- C2 counterexample: the dense primitives of `math4d.js` perform no dimension
checking.  Multiplying a 2×2 matrix by a 3×3 matrix returns the product with the
top-left 2×2 block of the larger operand, identically to passing the truncated
operand; likewise for `matVecMultN` (the matrix is truncated to the vector's
length) and for `matAddN`/`matSubtractN` (the second operand is truncated to the
first's dimension).  No error or precondition violation is ever reported. -/
theorem matPrimitives_dimension_mismatch_cex :
    matMultN [[1, 2], [3, 4]] [[5, 6, 100], [7, 8, 200], [300, 400, 500]]
      = matMultN [[1, 2], [3, 4]] [[5, 6], [7, 8]]
    ∧ matVecMultN [[1, 2, 100], [3, 4, 200], [500, 600, 700]] [10, 20]
      = matVecMultN [[1, 2], [3, 4]] [10, 20]
    ∧ matAddN [[1, 2], [3, 4]] [[5, 6, 100], [7, 8, 200], [300, 400, 500]]
      = matAddN [[1, 2], [3, 4]] [[5, 6], [7, 8]]
    ∧ matSubtractN [[1, 2], [3, 4]] [[5, 6, 100], [7, 8, 200], [300, 400, 500]]
      = matSubtractN [[1, 2], [3, 4]] [[5, 6], [7, 8]] := by
  refine ⟨?_, ?_, ?_, ?_⟩ <;>
    norm_num [matMultN, matVecMultN, matAddN, matSubtractN, List.range_succ]

/-- C2 amended: for every choice of rational entries, each dense primitive applied
to a 2×2 first operand (resp. length-2 vector) and a 3×3 second operand (resp. 3×3
matrix) silently truncates the larger operand to the controlling dimension and
returns that result — no error is surfaced on a dimension mismatch. -/
theorem matPrimitives_silently_truncate (a b c d e f g p q r s t u v w : ℚ) :
    matMultN [[a, b], [c, d]] [[e, f, g], [p, q, r], [s, t, u]]
      = matMultN [[a, b], [c, d]] [[e, f], [p, q]]
    ∧ matVecMultN [[e, f, g], [p, q, r], [s, t, u]] [v, w]
      = matVecMultN [[e, f], [p, q]] [v, w]
    ∧ matAddN [[a, b], [c, d]] [[e, f, g], [p, q, r], [s, t, u]]
      = matAddN [[a, b], [c, d]] [[e, f], [p, q]]
    ∧ matSubtractN [[a, b], [c, d]] [[e, f, g], [p, q, r], [s, t, u]]
      = matSubtractN [[a, b], [c, d]] [[e, f], [p, q]] := by
  refine ⟨?_, ?_, ?_, ?_⟩ <;>
    simp [matMultN, matVecMultN, matAddN, matSubtractN, List.range_succ]

end ClaimC2

section SeriesToolkit

/-- Entry `i, j` of a nested-array matrix, with the out-of-range default. -/
def ent (M : Mat) (i j : ℕ) : ℚ := (M.getD i []).getD j 0

/-- The n×n matrix with entry function `f`, built row by row like the source's
nested `Array.from`/loop constructions. -/
def mkMat (n : ℕ) (f : ℕ → ℕ → ℚ) : Mat :=
  (List.range n).map (fun i => (List.range n).map (f i))

/-- A nested array that is exactly n×n. -/
def IsSq (n : ℕ) (M : Mat) : Prop := M.length = n ∧ ∀ r ∈ M, r.length = n

theorem getD_range_map {α : Type} (d : α) (n : ℕ) (f : ℕ → α) (i : ℕ) (h : i < n) :
    ((List.range n).map f).getD i d = f i := by
  have hlen : i < ((List.range n).map f).length := by simpa using h
  rw [List.getD_eq_getElem _ _ hlen, List.getElem_map, List.getElem_range]

theorem length_mkMat (n : ℕ) (f : ℕ → ℕ → ℚ) : (mkMat n f).length = n := by
  simp [mkMat]

theorem isSq_mkMat (n : ℕ) (f : ℕ → ℕ → ℚ) : IsSq n (mkMat n f) := by
  refine ⟨by simp [mkMat], ?_⟩
  intro r hr
  simp only [mkMat, List.mem_map, List.mem_range] at hr
  obtain ⟨i, -, rfl⟩ := hr
  simp

theorem ent_mkMat (n : ℕ) (f : ℕ → ℕ → ℚ) (i j : ℕ) (hi : i < n) (hj : j < n) :
    ent (mkMat n f) i j = f i j := by
  unfold ent mkMat
  rw [getD_range_map _ _ _ _ hi, getD_range_map _ _ _ _ hj]

theorem ent_eq_get (M : Mat) (i j : ℕ) (hi : i < M.length)
    (hj : j < (M.get ⟨i, hi⟩).length) : ent M i j = (M.get ⟨i, hi⟩).get ⟨j, hj⟩ := by
  unfold ent
  have h1 : M.getD i [] = M.get ⟨i, hi⟩ := by
    rw [List.getD_eq_getElem _ _ hi, List.get_eq_getElem]
  rw [h1, List.getD_eq_getElem _ _ hj]
  simp [List.get_eq_getElem]

theorem mkMat_ent_self (n : ℕ) (M : Mat) (h : IsSq n M) : mkMat n (ent M) = M := by
  apply List.ext_getElem (by simp [mkMat, h.1])
  intro i hi hi'
  have hrow : (M.get ⟨i, hi'⟩).length = n := by
    rw [List.get_eq_getElem]
    exact h.2 _ (List.getElem_mem hi')
  simp only [mkMat, List.getElem_map, List.getElem_range]
  apply List.ext_getElem (by simpa [List.get_eq_getElem] using hrow.symm)
  intro j hj hj'
  rw [List.getElem_map, List.getElem_range]
  have hj2 : j < (M.get ⟨i, hi'⟩).length := by
    rw [List.get_eq_getElem]
    simpa using hj'
  exact ent_eq_get M i j hi' hj2

theorem mkMat_congr (n : ℕ) (f g : ℕ → ℕ → ℚ)
    (h : ∀ i < n, ∀ j < n, f i j = g i j) : mkMat n f = mkMat n g := by
  unfold mkMat
  apply List.map_congr_left
  intro i hi
  apply List.map_congr_left
  intro j hj
  exact h i (List.mem_range.mp hi) j (List.mem_range.mp hj)

theorem matMultN_def (a b : Mat) :
    matMultN a b = mkMat a.length (fun i j =>
      (List.range a.length).foldl (fun acc k => acc + ent a i k * ent b k j) 0) := rfl

theorem matAddN_def (a b : Mat) :
    matAddN a b = mkMat a.length (fun i j => ent a i j + ent b i j) := rfl

theorem matSubtractN_def (a b : Mat) :
    matSubtractN a b = mkMat a.length (fun i j => ent a i j - ent b i j) := rfl

theorem matScaleN_def (a : Mat) (s : ℚ) :
    matScaleN a s = mkMat a.length (fun i j => ent a i j * s) := rfl

theorem identityNxN_def (n : ℕ) :
    identityNxN n = mkMat n (fun i j => if j = i then 1 else 0) := rfl

/-- The n×n zero matrix (what the spec's empty series sum denotes). -/
def zeroMatN (n : ℕ) : Mat := mkMat n (fun _ _ => 0)

theorem matAddN_zero_left (n : ℕ) (B : Mat) (h : IsSq n B) :
    matAddN (zeroMatN n) B = B := by
  rw [matAddN_def, zeroMatN, length_mkMat]
  conv_rhs => rw [← mkMat_ent_self n B h]
  apply mkMat_congr
  intro i hi j hj
  rw [ent_mkMat _ _ _ _ hi hj, zero_add]

/-- Exact k-th matrix power with `X^1 = X`, the "exact matrix powers of
`X = M − I`" of the claim. -/
def matPowN (X : Mat) : ℕ → Mat
  | 0 => identityNxN X.length
  | 1 => X
  | (k + 2) => matMultN (matPowN X (k + 1)) X

/-- Modelled from the claim's words: the truncated alternating series
`Σ_{k=1}^{K} (−1)^{k+1} X^k / k`, with the empty sum being the zero matrix. -/
def altLogSeries (X : Mat) : ℕ → Mat
  | 0 => zeroMatN X.length
  | (K + 1) => matAddN (altLogSeries X K)
      (matScaleN (matPowN X (K + 1)) ((-1) ^ (K + 1 + 1) / (K + 1 : ℕ)))

theorem length_matMultN (a b : Mat) : (matMultN a b).length = a.length := by
  rw [matMultN_def, length_mkMat]

theorem length_matAddN (a b : Mat) : (matAddN a b).length = a.length := by
  rw [matAddN_def, length_mkMat]

theorem length_altLogSeries (X : Mat) (K : ℕ) : (altLogSeries X K).length = X.length := by
  induction K with
  | zero => rw [altLogSeries, zeroMatN, length_mkMat]
  | succ K ih => rw [altLogSeries, length_matAddN, ih]

theorem isSq_matScaleN (a : Mat) (s : ℚ) : IsSq a.length (matScaleN a s) := by
  rw [matScaleN_def]; exact isSq_mkMat _ _

theorem isSq_matAddN (a b : Mat) : IsSq a.length (matAddN a b) := by
  rw [matAddN_def]; exact isSq_mkMat _ _

theorem isSq_altLogSeries (X : Mat) (K : ℕ) : IsSq X.length (altLogSeries X K) := by
  cases K with
  | zero => rw [altLogSeries, zeroMatN]; exact isSq_mkMat _ _
  | succ K =>
    rw [altLogSeries]
    have h := isSq_matAddN (altLogSeries X K)
      (matScaleN (matPowN X (K + 1)) ((-1) ^ (K + 1 + 1) / (K + 1 : ℕ)))
    rwa [length_altLogSeries] at h

theorem altLogSeries_succ (X : Mat) (K : ℕ) :
    altLogSeries X (K + 1) = matAddN (altLogSeries X K)
      (matScaleN (matPowN X (K + 1)) ((-1) ^ (K + 1 + 1) / (K + 1 : ℕ))) := rfl

/-- The loop of `matrixLogN`, entered at step `k` with `power = A^(k-1)` and
`result` equal to the partial series through `k − 1`, ends with the full
truncated series. -/
theorem matrixLogLoop_eq_altLogSeries (A : Mat) :
    ∀ (fuel k terms : ℕ), 2 ≤ k → k ≤ terms + 1 → terms + 1 - k = fuel →
      matrixLogLoop A (matPowN A (k - 1)) (altLogSeries A (k - 1)) k terms
        = altLogSeries A terms := by
  intro fuel
  induction fuel with
  | zero =>
    intro k terms h2 hk hfuel
    rw [matrixLogLoop, if_pos (by omega)]
    congr 1
    omega
  | succ m ih =>
    intro k terms h2 hk hfuel
    rw [matrixLogLoop, if_neg (by omega)]
    have hpow : matMultN (matPowN A (k - 1)) A = matPowN A k := by
      have hk2 : k = (k - 2) + 2 := by omega
      conv_rhs => rw [hk2, matPowN]
      congr 2
      omega
    have hser : matAddN (altLogSeries A (k - 1))
        (matScaleN (matPowN A k) ((-1) ^ (k + 1) / k))
          = altLogSeries A k := by
      conv_rhs => rw [show k = k - 1 + 1 from by omega, altLogSeries_succ]
      rw [show k - 1 + 1 = k from by omega]
    simp only [hpow, hser]
    have := ih (k + 1) terms (by omega) (by omega) (by omega)
    simpa using this

/-- Shows `matrixLogN M K` with `K ≥ 1` is the truncated alternating series
`Σ_{k=1}^{K} (−1)^{k+1} (M−I)^k / k` in exact matrix powers of `X = M − I`. -/
theorem matrixLogN_eq_altLogSeries (M : Mat) (K : ℕ) (hK : 1 ≤ K) :
    matrixLogN M K = altLogSeries (matSubtractN M (identityNxN M.length)) K := by
  set A := matSubtractN M (identityNxN M.length) with hA
  have hfirst : matScaleN A 1 = altLogSeries A 1 := by
    rw [altLogSeries_succ]
    have h0 : altLogSeries A 0 = zeroMatN A.length := rfl
    rw [h0, matAddN_zero_left A.length _ (by
      have h := isSq_matScaleN (matPowN A 1) ((-1) ^ (0 + 1 + 1) / (0 + 1 : ℕ))
      simpa [matPowN] using h)]
    rw [show matPowN A 1 = A from rfl]
    norm_num
  have h2 := matrixLogLoop_eq_altLogSeries A (K - 1) 2 K (by omega) (by omega) (by omega)
  show matrixLogLoop A A (matScaleN A 1) 2 K = altLogSeries A K
  rw [hfirst]
  simpa using h2

end SeriesToolkit

section ClaimC3

/-- Modelled from the claim's words (C3 / spec §4.2): the value of `matrixLogN M`
factors through a square-root phase — for some number of halvings `m` within the
iteration bound (spec: "bounded, e.g. 20–50"; we take the outer bound 50) there is
a running matrix `B` whose `m`-fold squaring under `matMultN` gives back `M`, with
either `‖B − I‖_F < 0.5` (kept squared: `< 1/4`) or the bound exhausted, and the
returned matrix is the Taylor result for `B` rescaled by `2^m`. -/
def hasSqrtPhase (M : Mat) : Prop :=
  ∃ m B, m ≤ 50 ∧ (fun C => matMultN C C)^[m] B = M ∧
    (frobeniusNormSqN (matSubtractN B (identityNxN B.length)) < 1 / 4 ∨ m = 50) ∧
    matrixLogN M = matScaleN (matrixLogN B) ((2 : ℚ) ^ m)

theorem rat_sq_ne_two (q : ℚ) : q ^ 2 ≠ 2 := by
  intro h
  have h1 : ((q : ℝ)) ^ 2 = 2 := by exact_mod_cast h
  have h2 : Real.sqrt 2 = |(q : ℝ)| := by
    rw [← h1, Real.sqrt_sq_eq_abs]
  exact irrational_sqrt_two ⟨|q|, by rw [Rat.cast_abs, h2]⟩

/-- The 2D quarter-turn rotation has no rational matrix square root: the four
entry equations of `C·C = [[0,-1],[1,0]]` force `(2·C₀₁)² = 2`. -/
theorem no_rat_sqrt_quarter_turn (a b c d : ℚ) (h1 : a * a + b * c = 0)
    (h2 : a * b + b * d = -1) (h3 : c * a + d * c = 1) (h4 : c * b + d * d = 0) :
    False := by
  have hb : b * (a + d) = -1 := by linear_combination h2
  have hc : c * (a + d) = 1 := by linear_combination h3
  have had : a + d ≠ 0 := by
    intro h0
    rw [h0, mul_zero] at hb
    norm_num at hb
  have hcb : c = -b := by
    have hsum : (b + c) * (a + d) = 0 := by linear_combination hb + hc
    rcases mul_eq_zero.mp hsum with h | h
    · linarith
    · exact absurd h had
  have had2 : a = d := by
    have hdiff : (a - d) * (a + d) = 0 := by linear_combination h1 - h4
    rcases mul_eq_zero.mp hdiff with h | h
    · linarith
    · exact absurd h had
  subst hcb
  have e2 : 4 * (a * a) * (b * b) = 1 := by
    linear_combination (b * (a + d) - 1) * hb + (b * b) * (3 * a + d) * had2
  have h4b : 4 * (b * b) * (b * b) = 1 := by linear_combination e2 - 4 * (b * b) * h1
  have h2b2 : 2 * (b * b) = 1 := by
    have hfact : (2 * (b * b) - 1) * (2 * (b * b) + 1) = 0 := by linear_combination h4b
    rcases mul_eq_zero.mp hfact with h | h
    · linarith
    · nlinarith [sq_nonneg b]
  exact rat_sq_ne_two (2 * b) (by linear_combination 2 * h2b2)

/-- C3 counterexample: `matrixLogN` performs no square-root phase.  On the 2D
quarter-turn rotation (Frobenius distance 2 from the identity, above the claimed
0.5 threshold) no halving count `m` and running matrix `B` as described by the
claim exist at all: `m = 0` fails the distance condition, and `m ≥ 1` would give
the quarter turn a rational matrix square root, which does not exist. -/
theorem matrixLogN_sqrt_phase_cex : ¬ hasSqrtPhase [[0, -1], [1, 0]] := by
  rintro ⟨m, B, hm, hiter, hcond, -⟩
  cases m with
  | zero =>
    rw [Function.iterate_zero_apply] at hiter
    subst hiter
    rcases hcond with h | h
    · norm_num [frobeniusNormSqN, matSubtractN, identityNxN, mkMat, List.range_succ] at h
    · exact absurd h (by norm_num)
  | succ m' =>
    rw [Function.iterate_succ_apply'] at hiter
    set C := (fun C => matMultN C C)^[m'] B with hCdef
    have hlen : C.length = 2 := by
      have h := congrArg List.length hiter
      simpa [matMultN] using h
    rw [matMultN_def, hlen] at hiter
    norm_num [mkMat, List.range_succ] at hiter
    exact no_rat_sqrt_quarter_turn _ _ _ _ hiter.1.1 hiter.1.2 hiter.2.1 hiter.2.2

/-- C3 amended: `matrixLogN` applies the truncated alternating Taylor series to
its input directly, with no square-root halvings and no `2^m` rescaling, even
when the squared Frobenius distance of `M` to the identity is at least `1/4`
(i.e. the distance is at least the claimed `0.5` threshold). -/
theorem matrixLogN_no_sqrt_reduction (M : Mat) (K : ℕ) (hK : 1 ≤ K)
    (hfar : 1 / 4 ≤ frobeniusNormSqN (matSubtractN M (identityNxN M.length))) :
    matrixLogN M K = altLogSeries (matSubtractN M (identityNxN M.length)) K :=
  matrixLogN_eq_altLogSeries M K hK

theorem matrixLogN_no_sqrt_reduction_witness :
    ((1 ≤ 8 ∧ (1 : ℚ) / 4
        ≤ frobeniusNormSqN (matSubtractN [[0, -1], [1, 0]] (identityNxN 2)))
      ∧ matrixLogN [[0, -1], [1, 0]] 8
        = altLogSeries (matSubtractN [[0, -1], [1, 0]] (identityNxN 2)) 8) :=
  ⟨⟨by norm_num,
    by norm_num [frobeniusNormSqN, matSubtractN, identityNxN, mkMat, List.range_succ]⟩,
   matrixLogN_no_sqrt_reduction [[0, -1], [1, 0]] 8 (by norm_num)
     (by norm_num [frobeniusNormSqN, matSubtractN, identityNxN, mkMat, List.range_succ])⟩

end ClaimC3

section ClaimC4

/-- C4: for every matrix `M` and every term count `K ≥ 1`, `matrixLogN M K` is
the truncated alternating series `Σ_{k=1}^{K} (−1)^{k+1} (M−I)^k / k` in exact
matrix powers of `X = M − I`, and the term count defaults to 8 when omitted. -/
theorem matrixLogN_truncated_series (M : Mat) (K : ℕ) (hK : 1 ≤ K) :
    matrixLogN M K = altLogSeries (matSubtractN M (identityNxN M.length)) K
    ∧ matrixLogN M = altLogSeries (matSubtractN M (identityNxN M.length)) 8 :=
  ⟨matrixLogN_eq_altLogSeries M K hK, matrixLogN_eq_altLogSeries M 8 (by norm_num)⟩

theorem matrixLogN_truncated_series_witness :
    1 ≤ 2 ∧ (matrixLogN [[0, -1], [1, 0]] 2
        = altLogSeries (matSubtractN [[0, -1], [1, 0]] (identityNxN 2)) 2
      ∧ matrixLogN [[0, -1], [1, 0]]
        = altLogSeries (matSubtractN [[0, -1], [1, 0]] (identityNxN 2)) 8) :=
  ⟨by norm_num, matrixLogN_truncated_series [[0, -1], [1, 0]] 2 (by norm_num)⟩

end ClaimC4

/-! ## `geodesic.js`: eigendecomposition-based `logUnitary` and the geodesic API

Complex matrices are split into real/imaginary parts exactly as the source
keeps them (`*_re`/`*_im` nested arrays); the final mathjs matrix of complex
entries is a nested array of pairs.  The external routines `numeric.eig`
(eigendecomposition), `numeric.T.inv` (complex matrix inverse) and `Math.atan2`
are uninterpreted parameters; the source's `|| zero-fill` normalizations of
possibly-absent imaginary parts are absorbed into the oracle's output.  A `none`
entry of the inverse models an IEEE `NaN`, which is what the source's `isNaN`
scan detects. -/

/-- Output of `numeric.eig` as consumed by `logUnitary`. -/
structure EigOut where
  lambdaRe : List ℚ
  lambdaIm : List ℚ
  VRe : Mat
  VIm : Mat

/-- Output of `numeric.T.inv` as consumed by `logUnitary`; `none` models `NaN`. -/
structure InvOut where
  invRe : List (List (Option ℚ))
  invIm : List (List (Option ℚ))

/-- The `isIdentity` scan of `logUnitary`: every entry `i, j < n = U.length`
within `1e-10` of the identity's entry. -/
def isIdentityApprox (U : Mat) : Bool :=
  let n := U.length
  (List.range n).all (fun i => (List.range n).all (fun j =>
    |ent U i j - (if i = j then 1 else 0)| ≤ 1 / 10000000000))

/-- The n×n complex zero matrix `logUnitary` returns on its short-circuit paths. -/
def zeroCMat (n : ℕ) : List (List (ℚ × ℚ)) :=
  (List.range n).map (fun _ => (List.range n).map (fun _ => ((0 : ℚ), (0 : ℚ))))

/-- Embeds `geodesic.js` `complexMatMul`: `(A_re + i A_im)(B_re + i B_im)` with
`n = A_re.length`, `m = B_re[0].length`, `k = A_re[0].length`; the source
accumulates both parts in one loop, which we split into two identical folds. -/
def complexMatMul (Are Aim Bre Bim : Mat) : Mat × Mat :=
  let n := Are.length
  let m := (Bre.getD 0 []).length
  let k := (Are.getD 0 []).length
  (((List.range n).map (fun i => (List.range m).map (fun j =>
      (List.range k).foldl (fun acc p =>
        acc + (ent Are i p * ent Bre p j - ent Aim i p * ent Bim p j)) 0))),
   ((List.range n).map (fun i => (List.range m).map (fun j =>
      (List.range k).foldl (fun acc p =>
        acc + (ent Are i p * ent Bim p j + ent Aim i p * ent Bre p j)) 0))))

/-- The `isNaN` scan of `logUnitary` over the inverted eigenvector matrix:
some entry `i, j < n` of the real or imaginary part is `NaN` (`none`). -/
def hasNaNInv (n : ℕ) (V : InvOut) : Bool :=
  (List.range n).any (fun i => (List.range n).any (fun j =>
    ((V.invRe.getD i []).getD j (some 0)).isNone
      || ((V.invIm.getD i []).getD j (some 0)).isNone))

/-- Replace the option entries by their values (used on the no-NaN path, where
every consumed entry is `some`). -/
def stripOpt (M : List (List (Option ℚ))) : Mat :=
  M.map (fun r => r.map (fun x => x.getD 0))

/-- Pair up real and imaginary parts, as the final
`math.matrix(result_re.map((row,i) => row.map((v,j) => complex(v, result_im[i][j]))))`. -/
def zipCMat (Re Im : Mat) : List (List (ℚ × ℚ)) :=
  (List.range Re.length).map (fun i =>
    (List.range (Re.getD i []).length).map (fun j => (ent Re i j, ent Im i j)))

/-- The non-short-circuit body of `geodesic.js` `logUnitary`: eigendecompose,
take `θ_j = atan2(im λ_j, re λ_j)`, form `L = diag(i θ_j)`, compute `V·L`,
invert `V`, scan the inverse for `NaN` (returning the zero matrix with a console
warning if found), else return `(V·L)·V⁻¹`. -/
def logUnitaryFull (eig : Mat → EigOut) (inv : Mat → Mat → InvOut)
    (at2 : ℚ → ℚ → ℚ) (U : Mat) : List (List (ℚ × ℚ)) :=
  let n := U.length
  let E := eig U
  let theta := fun j => at2 (E.lambdaIm.getD j 0) (E.lambdaRe.getD j 0)
  let LRe : Mat := mkMat n (fun _ _ => 0)
  let LIm : Mat := mkMat n (fun i j => if i = j then theta i else 0)
  let VL := complexMatMul E.VRe E.VIm LRe LIm
  let Vi := inv E.VRe E.VIm
  if hasNaNInv n Vi then zeroCMat n
  else
    let R := complexMatMul VL.1 VL.2 (stripOpt Vi.invRe) (stripOpt Vi.invIm)
    zipCMat R.1 R.2

/-- Embeds `geodesic.js` `logUnitary`: short-circuit to the zero matrix when `U` is
within `1e-10` of the identity, else run the full eigendecomposition path. -/
def logUnitary (eig : Mat → EigOut) (inv : Mat → Mat → InvOut)
    (at2 : ℚ → ℚ → ℚ) (U : Mat) : List (List (ℚ × ℚ)) :=
  if isIdentityApprox U then zeroCMat U.length
  else logUnitaryFull eig inv at2 U

/-- Embeds `geodesic.js` `frobeniusNorm` of a complex matrix, kept in squared form
(the source applies `Math.sqrt` to this sum of `re² + im²`). -/
def frobeniusNormSqC (M : List (List (ℚ × ℚ))) : ℚ :=
  M.foldl (fun acc row => row.foldl (fun a z => a + (z.1 * z.1 + z.2 * z.2)) acc) 0

/-- Embeds `math.ctranspose` on the real input matrices used here: the transpose. -/
def ctransposeQ (M : Mat) : Mat :=
  (List.range (M.getD 0 []).length).map (fun j =>
    (List.range M.length).map (fun i => ent M i j))

/-- Embeds `math.multiply` for the (square, well-formed) matrices crossing this API:
entry `i, j` is `Σ_k A[i][k]·B[k][j]` with `k` ranging over `A`'s column count. -/
def matMulQ (A B : Mat) : Mat :=
  (List.range A.length).map (fun i =>
    (List.range (B.getD 0 []).length).map (fun j =>
      (List.range (A.getD 0 []).length).foldl
        (fun acc k => acc + ent A i k * ent B k j) 0))

/-- Embeds `geodesic.js` `geodesicDistance`: `sqrt` is the uninterpreted `Math.sqrt`
applied to the squared Frobenius norm of `log(Rᵀ·T)`. -/
def geodesicDistance (sqrtQ : ℚ → ℚ) (eig : Mat → EigOut) (inv : Mat → Mat → InvOut)
    (at2 : ℚ → ℚ → ℚ) (R T : Mat) : ℚ :=
  sqrtQ (frobeniusNormSqC (logUnitary eig inv at2 (matMulQ (ctransposeQ R) T)))

/-- Embeds `math.multiply(K, eps)`: entrywise scalar multiplication (shape-preserving). -/
def scaleEntries (K : Mat) (eps : ℚ) : Mat :=
  K.map (fun row => row.map (fun x => x * eps))

/-- Embeds `geodesic.js` `expOfScaled`: `math.expm(math.multiply(K, eps))` with the
external `math.expm` uninterpreted. -/
def expOfScaled (expm : Mat → Mat) (K : Mat) (eps : ℚ) : Mat :=
  expm (scaleEntries K eps)

/-- Embeds `geodesic.js` `H(R, K, eps) = R * exp(eps*K)`. -/
def H (expm : Mat → Mat) (R K : Mat) (eps : ℚ) : Mat :=
  matMulQ R (expOfScaled expm K eps)

/-- Embeds `geodesic.js` `dGeodesicAtZero`: central difference of `geodesicDistance`
along `H`, with the step defaulting to `1e-6` in the source. -/
def dGeodesicAtZero (sqrtQ : ℚ → ℚ) (eig : Mat → EigOut) (inv : Mat → Mat → InvOut)
    (at2 : ℚ → ℚ → ℚ) (expm : Mat → Mat) (R T K : Mat)
    (h : ℚ := 1 / 1000000) : ℚ :=
  let Hp := H expm R K h
  let Hm := H expm R K (-h)
  let dp := geodesicDistance sqrtQ eig inv at2 Hp T
  let dm := geodesicDistance sqrtQ eig inv at2 Hm T
  (dp - dm) / (2 * h)

section LogUnitaryLemmas

theorem isIdentityApprox_iff (U : Mat) :
    isIdentityApprox U = true ↔ ∀ i, i < U.length → ∀ j, j < U.length →
      |ent U i j - (if i = j then 1 else 0)| ≤ 1 / 10000000000 := by
  simp [isIdentityApprox, List.all_eq_true, List.mem_range]

theorem isIdentityApprox_identityNxN (n : ℕ) :
    isIdentityApprox (identityNxN n) = true := by
  rw [isIdentityApprox_iff]
  intro i hi j hj
  rw [identityNxN_def, length_mkMat] at hi hj
  rw [identityNxN_def, ent_mkMat _ _ _ _ hi hj]
  by_cases hij : i = j
  · simp [hij]
  · have hji : ¬ j = i := fun h => hij h.symm
    simp [hij, hji]

theorem foldl_add_zero_row (l : List (ℚ × ℚ)) (acc : ℚ) (h : ∀ z ∈ l, z = (0, 0)) :
    l.foldl (fun a z => a + (z.1 * z.1 + z.2 * z.2)) acc = acc := by
  induction l generalizing acc with
  | nil => rfl
  | cons x xs ih =>
    have hx : x = (0, 0) := h x (List.mem_cons_self x xs)
    have := ih (acc + (x.1 * x.1 + x.2 * x.2)) (fun z hz => h z (List.mem_cons_of_mem x hz))
    rw [List.foldl_cons, this, hx]
    norm_num

theorem frobeniusNormSqC_zeroCMat (n : ℕ) : frobeniusNormSqC (zeroCMat n) = 0 := by
  unfold frobeniusNormSqC zeroCMat
  rw [List.foldl_map]
  have h : ∀ (m : ℕ) (acc : ℚ),
      (List.range m).foldl (fun a (_ : ℕ) =>
        ((List.range n).map (fun _ => ((0 : ℚ), (0 : ℚ)))).foldl
          (fun a z => a + (z.1 * z.1 + z.2 * z.2)) a) acc = acc := by
    intro m
    induction m with
    | zero => intro acc; rfl
    | succ m ih =>
      intro acc
      rw [List.range_succ, List.foldl_append, ih]
      simp only [List.foldl_cons, List.foldl_nil]
      exact foldl_add_zero_row _ _ (by simp)
  exact h n 0

end LogUnitaryLemmas

section ClaimC5

/-- C5: when every entry of `U` (over the scanned `n×n` square, `n = U.length`)
is within `1e-10` of the identity's, `logUnitary` returns the zero matrix
immediately; when some entry differs by more than `1e-10`, the full
eigendecomposition computation is performed. -/
theorem logUnitary_identity_shortcut (eig : Mat → EigOut) (inv : Mat → Mat → InvOut)
    (at2 : ℚ → ℚ → ℚ) (U : Mat) :
    ((∀ i, i < U.length → ∀ j, j < U.length →
        |ent U i j - (if i = j then 1 else 0)| ≤ 1 / 10000000000) →
      logUnitary eig inv at2 U = zeroCMat U.length)
    ∧ ∀ i, i < U.length → ∀ j, j < U.length →
        1 / 10000000000 < |ent U i j - (if i = j then 1 else 0)| →
      logUnitary eig inv at2 U = logUnitaryFull eig inv at2 U := by
  constructor
  · intro hall
    have hb : isIdentityApprox U = true := (isIdentityApprox_iff U).mpr hall
    simp [logUnitary, hb]
  · intro i hi j hj hgt
    have hb : isIdentityApprox U = false := by
      cases hcase : isIdentityApprox U with
      | false => rfl
      | true =>
        have := (isIdentityApprox_iff U).mp hcase i hi j hj
        linarith
    simp [logUnitary, hb]

/-- Constant stand-in for `numeric.eig` used to instantiate oracle hypotheses. -/
def eig0 : Mat → EigOut := fun _ => ⟨[], [], [], []⟩

/-- Constant stand-in for `numeric.T.inv` with all-finite entries. -/
def inv0 : Mat → Mat → InvOut := fun _ _ => ⟨[], []⟩

/-- Constant stand-in for `numeric.T.inv` whose output carries a `NaN` entry. -/
def invNaN : Mat → Mat → InvOut := fun _ _ =>
  ⟨[[none, some 0], [some 0, some 0]], [[some 0, some 0], [some 0, some 0]]⟩

/-- Constant stand-in for `Math.atan2`. -/
def at20 : ℚ → ℚ → ℚ := fun _ _ => 0

/-- Stand-in for `Math.sqrt` (only ever applied to `0` in the witnesses). -/
def sqrt0 : ℚ → ℚ := fun _ => 0

/-- Stand-in for `math.expm`. -/
def expm0 : Mat → Mat := fun M => M

theorem logUnitary_identity_shortcut_witness :
    logUnitary eig0 inv0 at20 [[1, 0], [0, 1]] = zeroCMat 2
    ∧ logUnitary eig0 inv0 at20 [[0, -1], [1, 0]]
        = logUnitaryFull eig0 inv0 at20 [[0, -1], [1, 0]] :=
  ⟨(logUnitary_identity_shortcut eig0 inv0 at20 [[1, 0], [0, 1]]).1 (by
      intro i hi j hj
      simp only [List.length_cons, List.length_nil] at hi hj
      interval_cases i <;> interval_cases j <;> norm_num [ent]),
   (logUnitary_identity_shortcut eig0 inv0 at20 [[0, -1], [1, 0]]).2
      0 (by norm_num) 0 (by norm_num) (by norm_num [ent])⟩

end ClaimC5

section ClaimC1

/-- C1 counterexample: with an eigendecomposition whose inverted eigenvector
matrix carries a `NaN` entry, `logUnitary` on a non-identity input neither falls
back to another method nor surfaces an error: it returns the (plausible-looking
but wrong) zero matrix, exactly what the claim rules out. -/
theorem logUnitary_nan_zero_cex :
    isIdentityApprox [[0, -1], [1, 0]] = false
    ∧ hasNaNInv 2 (invNaN (eig0 [[0, -1], [1, 0]]).VRe (eig0 [[0, -1], [1, 0]]).VIm) = true
    ∧ logUnitary eig0 invNaN at20 [[0, -1], [1, 0]] = zeroCMat 2 := by
  refine ⟨?_, ?_, ?_⟩
  · cases hcase : isIdentityApprox [[(0 : ℚ), -1], [1, 0]] with
    | false => rfl
    | true =>
      have := (isIdentityApprox_iff _).mp hcase 0 (by norm_num) 0 (by norm_num)
      norm_num [ent] at this
  · simp [hasNaNInv, invNaN, List.range_succ]
  · have hni : isIdentityApprox [[(0 : ℚ), -1], [1, 0]] = false := by
      cases hcase : isIdentityApprox [[(0 : ℚ), -1], [1, 0]] with
      | false => rfl
      | true =>
        have := (isIdentityApprox_iff _).mp hcase 0 (by norm_num) 0 (by norm_num)
        norm_num [ent] at this
    simp [logUnitary, hni, logUnitaryFull, invNaN, hasNaNInv, List.range_succ]

/-- C1 amended: whenever the `NaN` scan of the inverted eigenvector matrix
fires on a non-identity input, `logUnitary` returns the zero matrix (after a
console warning).  No fallback method is attempted and no error reaches the
caller. -/
theorem logUnitary_nan_returns_zero (eig : Mat → EigOut) (inv : Mat → Mat → InvOut)
    (at2 : ℚ → ℚ → ℚ) (U : Mat)
    (hni : isIdentityApprox U = false)
    (hnan : hasNaNInv U.length (inv (eig U).VRe (eig U).VIm) = true) :
    logUnitary eig inv at2 U = zeroCMat U.length := by
  simp [logUnitary, hni, logUnitaryFull, hnan]

theorem logUnitary_nan_returns_zero_witness :
    (isIdentityApprox [[0, -1], [1, 0]] = false
      ∧ hasNaNInv (List.length [[(0 : ℚ), -1], [1, 0]])
          (invNaN (eig0 [[0, -1], [1, 0]]).VRe (eig0 [[0, -1], [1, 0]]).VIm) = true)
    ∧ logUnitary eig0 invNaN at20 [[0, -1], [1, 0]]
        = zeroCMat (List.length [[(0 : ℚ), -1], [1, 0]]) := by
  have hni : isIdentityApprox [[(0 : ℚ), -1], [1, 0]] = false := by
    cases hcase : isIdentityApprox [[(0 : ℚ), -1], [1, 0]] with
    | false => rfl
    | true =>
      have := (isIdentityApprox_iff _).mp hcase 0 (by norm_num) 0 (by norm_num)
      norm_num [ent] at this
  have hnan : hasNaNInv (List.length [[(0 : ℚ), -1], [1, 0]])
      (invNaN (eig0 [[0, -1], [1, 0]]).VRe (eig0 [[0, -1], [1, 0]]).VIm) = true := by
    simp [hasNaNInv, invNaN, List.range_succ]
  exact ⟨⟨hni, hnan⟩, logUnitary_nan_returns_zero eig0 invNaN at20 _ hni hnan⟩

end ClaimC1

section ClaimC6

/-- C6: for an exactly orthogonal `M` (the computed `MᵀM` is exactly the
identity, as for any member of SO(n) in exact arithmetic), the geodesic
distance of `M` to itself is below `1e-10` — the relative rotation passes the
identity short-circuit, so the distance is `sqrt 0 = 0`.  Holds for every
eigendecomposition/inverse/atan2 oracle and every `sqrt` with `sqrt 0 = 0`. -/
theorem geodesicDistance_self_lt (sqrtQ : ℚ → ℚ) (eig : Mat → EigOut)
    (inv : Mat → Mat → InvOut) (at2 : ℚ → ℚ → ℚ) (n : ℕ) (M : Mat)
    (hsq : sqrtQ 0 = 0)
    (horth : matMulQ (ctransposeQ M) M = identityNxN n) :
    geodesicDistance sqrtQ eig inv at2 M M < 1 / 10000000000 := by
  unfold geodesicDistance
  rw [horth, logUnitary, if_pos (isIdentityApprox_identityNxN n)]
  rw [identityNxN_def, length_mkMat, frobeniusNormSqC_zeroCMat, hsq]
  norm_num

theorem geodesicDistance_self_lt_witness :
    (sqrt0 0 = 0 ∧ matMulQ (ctransposeQ [[0, -1], [1, 0]]) [[0, -1], [1, 0]]
        = identityNxN 2)
    ∧ geodesicDistance sqrt0 eig0 inv0 at20 [[0, -1], [1, 0]] [[0, -1], [1, 0]]
        < 1 / 10000000000 := by
  have horth : matMulQ (ctransposeQ [[0, -1], [1, 0]]) [[0, -1], [1, 0]]
      = identityNxN 2 := by
    norm_num [matMulQ, ctransposeQ, identityNxN, mkMat, ent, List.range_succ]
  exact ⟨⟨rfl, horth⟩,
    geodesicDistance_self_lt sqrt0 eig0 inv0 at20 2 [[0, -1], [1, 0]] rfl horth⟩

end ClaimC6

section ClaimC9

/-- C9: `dGeodesicAtZero R T K h` is exactly the central finite difference
`[distance(R·exp(h·K), T) − distance(R·exp(−h·K), T)] / (2h)` of the geodesic
distance along the one-parameter family `H(ε) = R·exp(ε·K)` (with `exp` the
external `math.expm` applied to the scaled generator), and the step size
defaults to `1e-6` when omitted.  This holds for every oracle instantiation
and every step `h`, as a structural identity of the composition. -/
theorem dGeodesicAtZero_central_difference (sqrtQ : ℚ → ℚ) (eig : Mat → EigOut)
    (inv : Mat → Mat → InvOut) (at2 : ℚ → ℚ → ℚ) (expm : Mat → Mat)
    (R T K : Mat) (h : ℚ) :
    dGeodesicAtZero sqrtQ eig inv at2 expm R T K h
      = (geodesicDistance sqrtQ eig inv at2 (matMulQ R (expm (scaleEntries K h))) T
        - geodesicDistance sqrtQ eig inv at2 (matMulQ R (expm (scaleEntries K (-h)))) T)
          / (2 * h)
    ∧ dGeodesicAtZero sqrtQ eig inv at2 expm R T K
      = dGeodesicAtZero sqrtQ eig inv at2 expm R T K (1 / 1000000) :=
  ⟨rfl, rfl⟩

end ClaimC9

/-! ## `geodesic-wasm.js`: flat/nested conversions at the WASM boundary -/

/-- Embeds `geodesic-wasm.js` `matrixToFlat`: `n = matrix.length`; sequential row-major
push `flat[idx++] = matrix[i][j]` over `i, j < n`, i.e. the concatenation of the
`n` rows read on the n×n square. -/
def matrixToFlat (m : Mat) : List ℚ :=
  let n := m.length
  ((List.range n).map (fun i => (List.range n).map (fun j => ent m i j))).flatten

/-- Embeds `geodesic-wasm.js` `flatToMatrix`: rows of `n` consecutive entries; the
sequential `idx++` read puts row `i`, entry `j` at flat index `i*n + j`. -/
def flatToMatrix (flat : List ℚ) (n : ℕ) : Mat :=
  (List.range n).map (fun i => (List.range n).map (fun j => flat.getD (i * n + j) 0))

section ClaimC10

theorem flatten_getD (n : ℕ) (L : List (List ℚ)) :
    ∀ i j, (∀ r ∈ L, r.length = n) → i < L.length → j < n →
      L.flatten.getD (i * n + j) 0 = (L.getD i []).getD j 0 := by
  induction L with
  | nil => intro i j _ hi _; simp at hi
  | cons r rest ih =>
    intro i j hrows hi hj
    have hr : r.length = n := hrows r (List.mem_cons_self r rest)
    cases i with
    | zero =>
      rw [List.flatten_cons, Nat.zero_mul, Nat.zero_add, List.getD_cons_zero]
      exact List.getD_append r rest.flatten 0 j (by omega)
    | succ i' =>
      rw [List.flatten_cons, List.getD_cons_succ,
        show (i' + 1) * n + j = r.length + (i' * n + j) by rw [hr]; ring,
        List.getD_append_right r rest.flatten 0 _ (by omega),
        Nat.add_sub_cancel_left]
      exact ih i' j (fun s hs => hrows s (List.mem_cons_of_mem r hs))
        (by simpa using hi) hj

theorem flatToMatrix_def (flat : List ℚ) (n : ℕ) :
    flatToMatrix flat n = mkMat n (fun i j => flat.getD (i * n + j) 0) := rfl

/-- C10: for an n×n nested matrix (`n = M.length ≥ 1`, every row of length `n`),
`matrixToFlat` lays entry `(i, j)` out at flat index `i·n + j` (row-major), and
`flatToMatrix (matrixToFlat M) n` reproduces `M` entry for entry. -/
theorem matrixToFlat_roundtrip (M : Mat) (hn : 1 ≤ M.length)
    (hrows : ∀ r ∈ M, r.length = M.length) :
    flatToMatrix (matrixToFlat M) M.length = M
    ∧ ∀ i j, i < M.length → j < M.length →
        (matrixToFlat M).getD (i * M.length + j) 0 = ent M i j := by
  have hrowsL : ∀ r ∈ (List.range M.length).map
      (fun i => (List.range M.length).map (fun j => ent M i j)), r.length = M.length := by
    intro r hr
    simp only [List.mem_map] at hr
    obtain ⟨a, -, rfl⟩ := hr
    simp
  have hlayout : ∀ i j, i < M.length → j < M.length →
      (matrixToFlat M).getD (i * M.length + j) 0 = ent M i j := by
    intro i j hi hj
    unfold matrixToFlat
    rw [flatten_getD M.length _ i j hrowsL (by simpa using hi) hj]
    rw [getD_range_map _ _ _ _ hi, getD_range_map _ _ _ _ hj]
  refine ⟨?_, hlayout⟩
  rw [flatToMatrix_def]
  rw [show mkMat M.length (fun i j => (matrixToFlat M).getD (i * M.length + j) 0)
      = mkMat M.length (fun i j => ent M i j) from
    mkMat_congr M.length _ _ (fun i hi j hj => hlayout i j hi hj)]
  exact mkMat_ent_self M.length M ⟨rfl, hrows⟩

theorem matrixToFlat_roundtrip_witness :
    (1 ≤ 2 ∧ (∀ r ∈ ([[1, 2], [3, 4]] : Mat), r.length = 2))
    ∧ flatToMatrix (matrixToFlat [[1, 2], [3, 4]]) 2 = [[1, 2], [3, 4]] := by
  have hrows : ∀ r ∈ ([[(1 : ℚ), 2], [3, 4]] : Mat), r.length = 2 := by
    intro r hr
    fin_cases hr <;> rfl
  exact ⟨⟨by norm_num, hrows⟩,
    (matrixToFlat_roundtrip [[1, 2], [3, 4]] (by norm_num) hrows).1⟩

end ClaimC10

end TukeySO
